import Mathlib

/-!
Shallow embedding of `passwordforge.py` (rule parser, rule engine, delimiter
splitter) and verification of the specification's claims about it.

Strings are modelled as `List Char`.  Python's `str.lower`/`str.upper` on a
single character are modelled by `Char.toLower`/`Char.toUpper` (exact on the
ASCII range, which is the range the rule language operates on).  Fallible
operations (`re.sub` replacement-template compilation, Python list index
assignment) return `Except PyErr`.
-/

namespace PasswordForge

/-- Python whitespace (the ASCII characters stripped by `str.strip()` and
split on by `str.split()`). -/
def pyIsSpace (c : Char) : Bool :=
  c = ' ' || c = '\t' || c = '\n' || c = '\x0d' || c = '\x0b' || c = '\x0c'

/-- `s.lower()` on a string, character-wise. -/
def lowerList (l : List Char) : List Char := l.map Char.toLower

/-- `s.strip()`: remove leading and trailing whitespace. -/
def pyStrip (l : List Char) : List Char :=
  ((l.dropWhile pyIsSpace).reverse.dropWhile pyIsSpace).reverse

/-- Helper for `pySplit`: accumulate the current token (reversed) while
scanning. -/
def pySplitAux : List Char → List Char → List (List Char)
  | acc, [] => if acc.isEmpty then [] else [acc.reverse]
  | acc, c :: rest =>
    if pyIsSpace c then
      if acc.isEmpty then pySplitAux [] rest else acc.reverse :: pySplitAux [] rest
    else pySplitAux (c :: acc) rest

/-- `s.split()` with no argument: split on runs of whitespace, discarding
empty tokens. -/
def pySplit (l : List Char) : List (List Char) := pySplitAux [] l

/-- Numeric value of a decimal digit character. -/
def digitVal (c : Char) : Nat := c.toNat - 48

/-- Digit-run parser for Python `int()`: decimal digits with single
underscores allowed strictly between digits. -/
def pyIntDigits : Nat → List Char → Option Nat
  | acc, [] => some acc
  | acc, '_' :: rest =>
    match rest with
    | d :: rest' =>
      if d.isDigit then pyIntDigits (acc * 10 + digitVal d) rest' else none
    | [] => none
  | acc, d :: rest =>
    if d.isDigit then pyIntDigits (acc * 10 + digitVal d) rest else none

/-- Python `int(s)`: optional surrounding whitespace, optional sign, then a
digit run (ASCII model). `none` models `ValueError`. -/
def pyInt (s : List Char) : Option Int :=
  match pyStrip s with
  | '+' :: d :: rest =>
    if d.isDigit then (pyIntDigits (digitVal d) rest).map (fun n => (n : Int)) else none
  | '-' :: d :: rest =>
    if d.isDigit then (pyIntDigits (digitVal d) rest).map (fun n => -(n : Int)) else none
  | d :: rest =>
    if d.isDigit then (pyIntDigits (digitVal d) rest).map (fun n => (n : Int)) else none
  | [] => none

/-- Which occurrence a replace rule acts on: `"all"` or the parsed integer
(the source stores either the string `"all"` or an `int` in the
`instance` field). -/
inductive Ordinal
  | all
  | nth (n : Int)
  deriving DecidableEq

/-- Normalized case-transform operation (`"upper"` or `"lower"` after the
parser's normalization). -/
inductive Operation
  | upper
  | lower
  deriving DecidableEq

/-- A parsed rule: the three dictionary shapes produced by
`parse_single_rule`. -/
inductive Rule
  | replace (char : List Char) (inst : Ordinal) (replacement : List Char)
  | case_transform_position (position : Int) (operation : Operation)
  | case_transform_character (char : List Char) (inst : Int) (operation : Operation)
  deriving DecidableEq

/-- `c.upper()` / `c.lower()` on the matched character. -/
def applyOperation (op : Operation) (c : Char) : Char :=
  match op with
  | .upper => c.toUpper
  | .lower => c.toLower

/-- Runtime errors `apply_rules` can raise: `re.error` from replacement
template compilation, `IndexError` from list index assignment. -/
inductive PyErr
  | re_error (msg : List Char)
  | index_error
  deriving DecidableEq

/-- Decidable equality for `Except`, so concrete engine runs can be settled
by `decide`. -/
instance {e a : Type} [DecidableEq e] [DecidableEq a] : DecidableEq (Except e a) := fun x y =>
  match x, y with
  | .ok u, .ok v => decidable_of_iff (u = v) (by simp)
  | .ok _, .error _ => isFalse (by simp)
  | .error _, .ok _ => isFalse (by simp)
  | .error u, .error v => decidable_of_iff (u = v) (by simp)

/-- One piece of a compiled `re.sub` replacement template: a literal
character, or a reference to group 0 (the whole match; the compiled pattern
`re.escape(char)` contains no capturing groups, so every other group
reference fails at compile time). -/
inductive TItem
  | lit (c : Char)
  | group0
  deriving DecidableEq

/-- The `\a \b \f \n \r \t \v \\` escape table of `re`'s replacement
templates. -/
def sreEscapes (c : Char) : Option Char :=
  match c with
  | 'a' => some (Char.ofNat 7)
  | 'b' => some (Char.ofNat 8)
  | 'f' => some (Char.ofNat 12)
  | 'n' => some (Char.ofNat 10)
  | 'r' => some (Char.ofNat 13)
  | 't' => some (Char.ofNat 9)
  | 'v' => some (Char.ofNat 11)
  | '\\' => some '\\'
  | _ => none

/-- Octal digit test. -/
def isOctDigit (c : Char) : Bool := 48 ≤ c.toNat && c.toNat ≤ 55

/-- Scan of a `backslash-g<name>` group name: everything up to the closing
`>`, together with what follows it; `none` when the name is unterminated. -/
def scanGroupName : List Char → Option (List Char × List Char)
  | [] => none
  | '>' :: rest => some ([], rest)
  | c :: rest => (scanGroupName rest).map (fun p => (c :: p.1, p.2))

/-- The suffix returned by `scanGroupName` is strictly shorter than its
input (the closing `>` is consumed). -/
theorem scanGroupName_length :
    ∀ l name rest, scanGroupName l = some (name, rest) → rest.length < l.length := by
  intro l
  induction l with
  | nil => intro name rest h; simp [scanGroupName] at h
  | cons c tl ih =>
    intro name rest h
    by_cases hc : c = '>'
    · subst hc
      simp [scanGroupName] at h
      obtain ⟨h1, h2⟩ := h
      subst h2
      simp
    · rw [show scanGroupName (c :: tl) = (scanGroupName tl).map (fun p => (c :: p.1, p.2)) by
        cases tl <;> simp [scanGroupName, hc]] at h
      match hs : scanGroupName tl with
      | none => rw [hs] at h; simp at h
      | some (nm2, rest2) =>
        rw [hs] at h
        simp at h
        have := ih nm2 rest2 hs
        have hr : rest = rest2 := by tauto
        subst hr
        simp
        omega

/-- The non-group, non-octal escape interpretation of a replacement
template: look `e` up in the escape table; unknown ASCII-letter escapes are
an error, any other unknown escape keeps the backslash and the character;
`k` is the compilation of the rest of the template. -/
def applyEscape (e : Char) (k : Except (List Char) (List TItem)) :
    Except (List Char) (List TItem) :=
  match sreEscapes e with
  | some x => k.map (fun t => .lit x :: t)
  | none =>
    if e.isAlpha then .error ("bad escape".toList)
    else k.map (fun t => .lit '\\' :: .lit e :: t)

/-- Python `re` replacement-template compilation (`sre_parse.parse_template`)
for a pattern with zero capturing groups: backslash escapes are interpreted;
a lone trailing backslash or an unknown ASCII-letter escape is an error; a
group reference other than group 0 (the only group of the pattern
`re.escape(char)`) is an error.  The scan looks at most three characters
past a backslash, so the lookahead shapes are enumerated as ordered
top-level cases. -/
def parse_template : List Char → Except (List Char) (List TItem)
  | [] => .ok []
  | ['\\'] => .error ("bad escape (end of pattern)".toList)
  | '\\' :: 'g' :: '<' :: r2 =>
    match hsc : scanGroupName r2 with
    | some (name, rest3) =>
      if name = [] then .error ("missing group name".toList)
      else if name.all Char.isDigit then
        if name.all (fun d => d = '0') then
          (parse_template rest3).map (fun t => .group0 :: t)
        else .error ("invalid group reference".toList)
      else .error ("bad character in group name".toList)
    | none => .error ("missing >, unterminated name".toList)
  | '\\' :: 'g' :: _ => .error ("missing <".toList)
  | '\\' :: '0' :: d1 :: d2 :: r3 =>
    -- octal escape: backslash-0 followed by up to two more octal digits
    if isOctDigit d1 then
      if isOctDigit d2 then
        (parse_template r3).map (fun t => .lit (Char.ofNat (digitVal d1 * 8 + digitVal d2)) :: t)
      else
        (parse_template (d2 :: r3)).map (fun t => .lit (Char.ofNat (digitVal d1)) :: t)
    else
      (parse_template (d1 :: d2 :: r3)).map (fun t => .lit (Char.ofNat 0) :: t)
  | ['\\', '0', d1] =>
    if isOctDigit d1 then .ok [.lit (Char.ofNat (digitVal d1))]
    else (parse_template [d1]).map (fun t => .lit (Char.ofNat 0) :: t)
  | ['\\', '0'] => .ok [.lit (Char.ofNat 0)]
  | '\\' :: e :: d1 :: d2 :: r2 =>
    if e.isDigit then
      -- leading digit 1-9: either a three-octal-digit escape, or a group
      -- reference, which the zero-group pattern always rejects
      if d1.isDigit && isOctDigit e && isOctDigit d1 && isOctDigit d2 then
        -- the range check `0o377 < value`: with all three digits octal, the
        -- value `64*a + 8*b + c` (`b`, `c` at most 7) exceeds 255 exactly
        -- when the leading digit `a` is at least 4, i.e. `e` is above '3'
        if 51 < e.toNat then
          .error ("octal escape value outside of range 0-0o377".toList)
        else
          (parse_template r2).map
            (fun t => .lit (Char.ofNat (digitVal e * 64 + digitVal d1 * 8 + digitVal d2)) :: t)
      else .error ("invalid group reference".toList)
    else applyEscape e (parse_template (d1 :: d2 :: r2))
  | '\\' :: e :: r =>
    -- fewer than two characters left after the escape character
    if e.isDigit then .error ("invalid group reference".toList)
    else applyEscape e (parse_template r)
  | c :: rest => (parse_template rest).map (fun t => .lit c :: t)
termination_by l => l.length
decreasing_by
  all_goals first
  | (simp_wf <;> omega)
  | (have hlen := scanGroupName_length _ _ _ hsc; simp_wf <;> omega)


/-- Expand a compiled template against the matched text. -/
def expandTemplate (tmpl : List TItem) (matched : List Char) : List Char :=
  tmpl.foldr (fun it acc => match it with | .lit c => c :: acc | .group0 => matched ++ acc) []

/-- Case-insensitive match of the literal pattern `char` at the start of
`s`: code-point comparison on lowercased forms. -/
def matchesAtCI (char s : List Char) : Bool :=
  (lowerList char).isPrefixOf (lowerList s)

/-- Scanner for `re.compile(re.escape(char), re.IGNORECASE).sub(template, s)`:
leftmost non-overlapping case-insensitive occurrences of `char` are replaced
by the expanded template.  The first argument is the number of characters of
a just-matched occurrence still to be skipped, so that consuming a match of
length `n` at `c :: rest` is: emit the expansion, skip the remaining `n - 1`
matched characters of `rest`, and resume scanning. -/
def subIgnoreCaseAux (char : List Char) (tmpl : List TItem) : Nat → List Char → List Char
  | _ + 1, [] => []
  | k + 1, _ :: rest => subIgnoreCaseAux char tmpl k rest
  | 0, [] => if char = [] then expandTemplate tmpl [] else []
  | 0, c :: rest =>
    if char = [] then
      expandTemplate tmpl [] ++ c :: subIgnoreCaseAux char tmpl 0 rest
    else if matchesAtCI char (c :: rest) then
      expandTemplate tmpl ((c :: rest).take char.length) ++
        subIgnoreCaseAux char tmpl (char.length - 1) rest
    else
      c :: subIgnoreCaseAux char tmpl 0 rest

/-- `pattern.sub(template, s)` for the case-insensitive literal pattern. -/
def subIgnoreCase (char : List Char) (tmpl : List TItem) (s : List Char) : List Char :=
  subIgnoreCaseAux char tmpl 0 s

/-- Scanner for Python `str.replace(old, new)`: replace every leftmost
non-overlapping occurrence of `old` by `new`; the first argument is the
number of characters of a just-matched occurrence still to be skipped. -/
def strReplaceAux (old new : List Char) : Nat → List Char → List Char
  | _ + 1, [] => []
  | k + 1, _ :: rest => strReplaceAux old new k rest
  | 0, [] => if old = [] then new else []
  | 0, c :: rest =>
    if old = [] then
      new ++ c :: strReplaceAux old new 0 rest
    else if old.isPrefixOf (c :: rest) then
      new ++ strReplaceAux old new (old.length - 1) rest
    else
      c :: strReplaceAux old new 0 rest

/-- Python `str.replace(old, new)`. -/
def str_replace (old new s : List Char) : List Char :=
  strReplaceAux old new 0 s

/-- The per-character match test of the nth-instance scanning loops: the
scanned character `c` is compared (as a one-character string) with the
rule's `char`, on lowercased forms when `case_insensitive` is set. -/
def charMatch (case_insensitive : Bool) (char : List Char) (c : Char) : Bool :=
  if case_insensitive then lowerList char = [c.toLower] else char = [c]

/-- The nth-instance replacement loop of `apply_rules` (`count` starts at 0;
on a match the count is incremented and, exactly when it reaches
`inst`, the replacement is emitted instead of the character). -/
def replaceNthLoop (m : Char → Bool) (inst : Int) (replacement : List Char) :
    Int → List Char → List Char
  | _, [] => []
  | count, c :: rest =>
    if m c then
      if count + 1 = inst then replacement ++ replaceNthLoop m inst replacement (count + 1) rest
      else c :: replaceNthLoop m inst replacement (count + 1) rest
    else c :: replaceNthLoop m inst replacement count rest

/-- The nth-instance case-transform loop of `apply_rules`: same scanning as
`replaceNthLoop`, but the matched character is case-transformed in place. -/
def caseNthLoop (m : Char → Bool) (inst : Int) (operation : Operation) :
    Int → List Char → List Char
  | _, [] => []
  | count, c :: rest =>
    if m c then
      if count + 1 = inst then
        applyOperation operation c :: caseNthLoop m inst operation (count + 1) rest
      else c :: caseNthLoop m inst operation (count + 1) rest
    else c :: caseNthLoop m inst operation count rest

/-- Total number of matches seen by a scanning loop (the final value of
`count`). -/
def countMatches (m : Char → Bool) (l : List Char) : Nat := (l.filter m).length

/-- In-place update of the character at index `k` (the effect of
`chars[k] = f(chars[k])` for a non-negative index). -/
def modifyNth (f : Char → Char) : Nat → List Char → List Char
  | _, [] => []
  | 0, c :: rest => f c :: rest
  | k + 1, c :: rest => c :: modifyNth f k rest

/-- One step of the engine's fold: the body of the `for rule in rules`
loop of `apply_rules`, on the current `result`.  Python's
`chars[position-1]` assignment uses signed indexing: a negative index `i`
with `-len <= i` addresses `chars[len + i]`, and `i < -len` raises
`IndexError`. -/
def apply_rule (case_insensitive : Bool) (result : List Char) :
    Rule → Except PyErr (List Char)
  | .replace char inst replacement =>
    match inst with
    | .all =>
      if case_insensitive then
        match parse_template replacement with
        | .error msg => .error (.re_error msg)
        | .ok tmpl => .ok (subIgnoreCase char tmpl result)
      else
        .ok (str_replace char replacement result)
    | .nth n => .ok (replaceNthLoop (charMatch case_insensitive char) n replacement 0 result)
  | .case_transform_position position operation =>
    if position ≤ (result.length : Int) then
      if 0 ≤ position - 1 then
        .ok (modifyNth (applyOperation operation) (position - 1).toNat result)
      else if -(result.length : Int) ≤ position - 1 then
        .ok (modifyNth (applyOperation operation) (position - 1 + result.length).toNat result)
      else .error .index_error
    else .ok result
  | .case_transform_character char inst operation =>
    if char = [] then .ok result
    else
      let m := charMatch case_insensitive char
      if 0 < countMatches m result then .ok (caseNthLoop m inst operation 0 result)
      else .ok result

/-- `apply_rules(word, rules, case_insensitive)`: sequential fold of the
rules over the word. -/
def apply_rules (word : List Char) (rules : List Rule)
    (case_insensitive : Bool := false) : Except PyErr (List Char) :=
  rules.foldlM (fun result rule => apply_rule case_insensitive result rule) word

/-- The `re.split` call of `split_escaped_delimiters` with its hardcoded
negative-lookbehind pattern (two literal pipes not preceded by a
backslash): split on
every `||` not immediately preceded by a backslash, scanning left to right;
`prev` is the character immediately before the current position (`none` at
the start of the string). -/
def splitUnescapedPipes : Option Char → List Char → List (List Char)
  | _, [] => [[]]
  | _, [c] => [[c]]
  | prev, c :: d :: rest =>
    if c = '|' ∧ d = '|' ∧ prev ≠ some '\\' then
      [] :: splitUnescapedPipes (some '|') rest
    else
      match splitUnescapedPipes (some c) (d :: rest) with
      | [] => [[c]]
      | f :: fs => (c :: f) :: fs

/-- `split_escaped_delimiters(text, delimiter)`: the splitting regex is
hardcoded to `||`; the `delimiter` parameter is used only in the
per-fragment un-escaping `part.replace("\\" + delimiter, delimiter)` and
the final `strip()`. -/
def split_escaped_delimiters (text : List Char)
    (delimiter : List Char := ['|', '|']) : List (List Char) :=
  (splitUnescapedPipes none text).map
    (fun part => pyStrip (str_replace ('\\' :: delimiter) delimiter part))

/-- Operation-name normalization shared by the two case-transform parse
branches: `u`/`upper` become `upper`, the remaining accepted names
(`l`/`lower`) become `lower`. -/
def normalizeOperation (operation : List Char) : Operation :=
  if operation = "u".toList ∨ operation = "upper".toList then .upper else .lower

/-- The accepted operation tokens, after lowercasing. -/
def isOperationToken (operation : List Char) : Prop :=
  operation = "upper".toList ∨ operation = "u".toList ∨
    operation = "lower".toList ∨ operation = "l".toList

instance (operation : List Char) : Decidable (isOperationToken operation) := by
  unfold isOperationToken; infer_instance

/-- The third (`len(parts) >= 3`) branch of `parse_single_rule`: a standard
replacement rule `char instance replacement`. -/
def parseReplaceBranch (p0 p1 p2 : List Char) : Option Rule :=
  if lowerList p1 = "all".toList then
    some (.replace p0 .all p2)
  else
    match pyInt p1 with
    | some inst => some (.replace p0 (.nth inst) p2)
    | none => none

/-- `parse_single_rule(rule_text)`: whitespace tokenization followed by the
three-way dispatch (position case-transform, character case-transform,
replacement); `none` models a warning with no rule produced. -/
def parse_single_rule (rule_text : List Char) : Option Rule :=
  match pySplit rule_text with
  | [p0, p1, p2] =>
    if lowerList p0 = "pos".toList then
      match pyInt p1 with
      | some position =>
        if isOperationToken (lowerList p2) then
          some (.case_transform_position position (normalizeOperation (lowerList p2)))
        else none
      | none => none
    else if isOperationToken (lowerList p2) then
      if lowerList p1 = "all".toList then none
      else
        match pyInt p1 with
        | some inst =>
          some (.case_transform_character p0 inst (normalizeOperation (lowerList p2)))
        | none => none
    else
      parseReplaceBranch p0 p1 p2
  | p0 :: p1 :: p2 :: _ :: _ => parseReplaceBranch p0 p1 p2
  | _ => none

/-!
Spec-side definitions: phrased after the specification's and the claims'
words, for refinement statements.  The definitions above are the code side.
-/

/-- Spec wording (replace-all, case-insensitive): every leftmost
non-overlapping case-insensitive occurrence of `char` is removed and the
`replacement` text is inserted verbatim in its place.  Same skip-state
scanner shape as the engine's `subIgnoreCaseAux`, but the inserted text is
the replacement string itself, with no template interpretation. -/
def specVerbatimCIAux (char replacement : List Char) : Nat → List Char → List Char
  | _ + 1, [] => []
  | k + 1, _ :: rest => specVerbatimCIAux char replacement k rest
  | 0, [] => if char = [] then replacement else []
  | 0, c :: rest =>
    if char = [] then
      replacement ++ c :: specVerbatimCIAux char replacement 0 rest
    else if matchesAtCI char (c :: rest) then
      replacement ++ specVerbatimCIAux char replacement (char.length - 1) rest
    else
      c :: specVerbatimCIAux char replacement 0 rest

/-- Spec wording: verbatim case-insensitive replace-all over a word. -/
def specVerbatimReplaceAllCI (char replacement s : List Char) : List Char :=
  specVerbatimCIAux char replacement 0 s

/-- 0-based index of the match of `m` in `w` with exactly `k` matches before
it (so `k = 0` gives the first match), scanning left to right. -/
def nthMatchIdx (m : Char → Bool) : Nat → List Char → Option Nat
  | _, [] => none
  | k, c :: rest =>
    if m c then
      if k = 0 then some 0 else (nthMatchIdx m (k - 1) rest).map (fun i => i + 1)
    else (nthMatchIdx m k rest).map (fun i => i + 1)

/-- Spec wording (replace, instance `Nth(n)`, `n` at least 1): the `n`-th
matching occurrence, counted left to right, is substituted by the
replacement; every other character is unchanged; with fewer than `n` matches
the word is unchanged. -/
def specReplaceNth (m : Char → Bool) (n : Int) (replacement w : List Char) : List Char :=
  match nthMatchIdx m (n - 1).toNat w with
  | some i => w.take i ++ replacement ++ w.drop (i + 1)
  | none => w

/-- Spec wording (case transform at position `p`, `p` at least 1): within
bounds, exactly the character at 1-based position `p` is transformed, all
others unchanged; past the end of the word, the word is unchanged. -/
def specCasePos (p : Int) (op : Operation) (w : List Char) : List Char :=
  if p ≤ (w.length : Int) then
    w.take (p.toNat - 1) ++ [applyOperation op (w.getD (p.toNat - 1) ' ')] ++ w.drop p.toNat
  else w

/-- The side conditions under which one rule can never fail at apply time:
a position ordinal at least 1, and (in case-insensitive mode) a
replace-all replacement containing no backslash. -/
def ruleApplySafe (case_insensitive : Bool) : Rule → Bool
  | .replace _ .all replacement => !case_insensitive || decide ('\\' ∉ replacement)
  | .case_transform_position position _ => decide (1 ≤ position)
  | _ => true

/-- Substring occurrence test (used to state where `str_replace` and the
delimiter split act trivially). -/
def hasSub (pat : List Char) : List Char → Bool
  | [] => pat.isPrefixOf []
  | c :: rest => pat.isPrefixOf (c :: rest) || hasSub pat rest

/-! Helper lemmas. -/

/-- Bind on an `ok` value. -/
theorem exceptBindOk {e a b : Type} (x : a) (f : a → Except e b) :
    (Except.ok x : Except e a) >>= f = f x := rfl

/-- Bind on an `error` value. -/
theorem exceptBindError {e a b : Type} (err : e) (f : a → Except e b) :
    (Except.error err : Except e a) >>= f = .error err := rfl

/-- Bind with `ok` on the right. -/
theorem exceptBindPure {e a : Type} (x : Except e a) : x >>= Except.ok = x := by
  cases x <;> rfl

/-- The engine's fold on an empty ruleset. -/
theorem apply_rules_nil (w : List Char) (ci : Bool) : apply_rules w [] ci = .ok w := rfl

/-- One step of the engine's fold. -/
theorem apply_rules_cons (w : List Char) (r : Rule) (rs : List Rule) (ci : Bool) :
    apply_rules w (r :: rs) ci =
      (apply_rule ci w r) >>= (fun w' => apply_rules w' rs ci) := rfl

/-- The engine's fold over a ruleset extended on the right: the last rule
sees the result of all earlier rules. -/
theorem apply_rules_append (w : List Char) (rs : List Rule) (r : Rule) (ci : Bool) :
    apply_rules w (rs ++ [r]) ci =
      (apply_rules w rs ci) >>= (fun w' => apply_rule ci w' r) := by
  induction rs generalizing w with
  | nil =>
    simp [apply_rules_nil, apply_rules_cons, exceptBindOk, exceptBindPure]
  | cons r0 tl ih =>
    rw [List.cons_append, apply_rules_cons, apply_rules_cons]
    cases apply_rule ci w r0 with
    | ok w1 => simp [exceptBindOk, ih]
    | error e => simp [exceptBindError]

/-- A template with no backslash compiles to itself, literally. -/
theorem parse_template_no_bs :
    ∀ tmpl : List Char, '\\' ∉ tmpl → parse_template tmpl = .ok (tmpl.map TItem.lit) := by
  intro tmpl
  induction tmpl with
  | nil => intro h; simp [parse_template]
  | cons c rest ih =>
    intro h
    have hc : c ≠ '\\' := fun hcc => h (hcc ▸ List.mem_cons_self c rest)
    have hrest : '\\' ∉ rest := fun hm => h (List.mem_cons_of_mem c hm)
    rw [parse_template.eq_def]
    split
    all_goals simp_all [Except.map]

/-- A template of literals expands to exactly those characters, whatever was
matched. -/
theorem expandTemplate_lit (l m : List Char) :
    expandTemplate (l.map TItem.lit) m = l := by
  induction l with
  | nil => rfl
  | cons c rest ih => simp [expandTemplate] at ih ⊢; exact ih

/-- The engine's case-insensitive substitution with a literal-only template
is the spec's verbatim replacement (pointwise on the scanner state). -/
theorem subIgnoreCaseAux_lit (char repl : List Char) :
    ∀ s k, subIgnoreCaseAux char (repl.map TItem.lit) k s = specVerbatimCIAux char repl k s := by
  intro s
  induction s with
  | nil =>
    intro k
    cases k with
    | zero => simp [subIgnoreCaseAux, specVerbatimCIAux, expandTemplate_lit]
    | succ k' => simp [subIgnoreCaseAux, specVerbatimCIAux]
  | cons c rest ih =>
    intro k
    cases k with
    | zero =>
      simp only [subIgnoreCaseAux, specVerbatimCIAux, expandTemplate_lit]
      by_cases hchar : char = []
      · subst hchar; simp [ih]
      · simp [hchar]
        by_cases hm : matchesAtCI char (c :: rest)
        · simp [hm, ih]
        · simp [hm, ih]
    | succ k' => simp [subIgnoreCaseAux, specVerbatimCIAux, ih]

/-- In-place character update as take-transform-drop, for an in-bounds
index. -/
theorem modifyNth_eq (f : Char → Char) :
    ∀ (w : List Char) (k : Nat), k < w.length →
      modifyNth f k w = w.take k ++ [f (w.getD k ' ')] ++ w.drop (k + 1) := by
  intro w
  induction w with
  | nil => intro k hk; simp at hk
  | cons c rest ih =>
    intro k hk
    cases k with
    | zero => simp [modifyNth]
    | succ k' =>
      simp only [modifyNth, List.take_succ_cons, List.drop_succ_cons, List.getD_cons_succ]
      rw [ih k' (by simpa using hk)]
      simp

/-- Any rule satisfying its safety side conditions applies without error. -/
theorem apply_rule_safe (ci : Bool) (w : List Char) (r : Rule)
    (h : ruleApplySafe ci r = true) : ∃ out, apply_rule ci w r = .ok out := by
  cases r with
  | replace char inst replacement =>
    cases inst with
    | all =>
      by_cases hci : ci = true
      · subst hci
        simp [ruleApplySafe] at h
        exact ⟨subIgnoreCase char (replacement.map TItem.lit) w,
          by simp [apply_rule, parse_template_no_bs replacement h]⟩
      · have hf : ci = false := by revert hci; cases ci <;> simp
        subst hf
        exact ⟨_, rfl⟩
    | nth n => exact ⟨_, rfl⟩
  | case_transform_position p op =>
    simp [ruleApplySafe] at h
    by_cases hle : p ≤ (w.length : Int)
    · have h0 : (0 : Int) ≤ p - 1 := by omega
      exact ⟨modifyNth (applyOperation op) (p - 1).toNat w, by simp [apply_rule, hle, h0]⟩
    · exact ⟨w, by simp [apply_rule, hle]⟩
  | case_transform_character char inst op =>
    by_cases hc : char = []
    · exact ⟨w, by simp [apply_rule, hc]⟩
    · by_cases hcount : 0 < countMatches (charMatch ci char) w
      · exact ⟨caseNthLoop (charMatch ci char) inst op 0 w,
          by simp [apply_rule, hc, hcount]⟩
      · exact ⟨w, by simp [apply_rule, hc, hcount]⟩

/-- Once the count has reached the target, the scanning loop changes
nothing. -/
theorem replaceNthLoop_done (m : Char → Bool) (n : Int) (repl : List Char) :
    ∀ (w : List Char) (count : Int), n ≤ count → replaceNthLoop m n repl count w = w := by
  intro w
  induction w with
  | nil => intro count h; rfl
  | cons c rest ih =>
    intro count h
    simp only [replaceNthLoop]
    by_cases hm : m c
    · have hne : ¬(count + 1 = n) := by omega
      simp [hm, hne, ih (count + 1) (by omega)]
    · simp [hm, ih count h]

/-- The counting loop is the indexed spec substitution: with `count` matches
already seen and `k` further matches to pass over before the target, it
substitutes the match with 0-based index `k` among the remaining matches. -/
theorem replaceNthLoop_spec (m : Char → Bool) (n : Int) (repl : List Char) :
    ∀ (w : List Char) (count : Int) (k : Nat), n = count + 1 + (k : Int) →
      replaceNthLoop m n repl count w =
        (match nthMatchIdx m k w with
         | some i => w.take i ++ repl ++ w.drop (i + 1)
         | none => w) := by
  intro w
  induction w with
  | nil => intro count k h; rfl
  | cons c rest ih =>
    intro count k h
    by_cases hm : m c
    · cases k with
      | zero =>
        have heq : count + 1 = n := by omega
        simp only [replaceNthLoop, nthMatchIdx, hm, heq]
        simp [replaceNthLoop_done m n repl rest n le_rfl]
      | succ k2 =>
        have hne : ¬(count + 1 = n) := by omega
        have harg : n = (count + 1) + 1 + (k2 : Int) := by push_cast; push_cast at h; omega
        rw [show replaceNthLoop m n repl count (c :: rest) =
            c :: replaceNthLoop m n repl (count + 1) rest by
          simp [replaceNthLoop, hm, hne]]
        rw [ih (count + 1) k2 harg]
        rw [show nthMatchIdx m (k2 + 1) (c :: rest) =
            (nthMatchIdx m k2 rest).map (fun i => i + 1) by
          simp [nthMatchIdx, hm]]
        cases hidx : nthMatchIdx m k2 rest with
        | none => simp
        | some i => simp
    · rw [show replaceNthLoop m n repl count (c :: rest) =
          c :: replaceNthLoop m n repl count rest by
        simp [replaceNthLoop, hm]]
      rw [ih count k h]
      rw [show nthMatchIdx m k (c :: rest) =
          (nthMatchIdx m k rest).map (fun i => i + 1) by
        simp [nthMatchIdx, hm]]
      cases hidx : nthMatchIdx m k rest with
      | none => simp
      | some i => simp

/-- An occurrence of an extended pattern contains an occurrence of the
pattern. -/
theorem hasSub_of_cons (c : Char) (pat : List Char) :
    ∀ l, hasSub (c :: pat) l = true → hasSub pat l = true := by
  intro l
  induction l with
  | nil => intro h; simp [hasSub, List.isPrefixOf] at h
  | cons x rest ih =>
    intro h
    simp only [hasSub, Bool.or_eq_true] at h ⊢
    cases h with
    | inl hp =>
      simp only [List.isPrefixOf, Bool.and_eq_true] at hp
      right
      cases rest with
      | nil => simp [hasSub, List.isPrefixOf_iff_prefix] at hp ⊢; simp [hp]
      | cons y rest2 =>
        simp only [hasSub, Bool.or_eq_true]
        left
        exact hp.2
    | inr hr => right; exact ih hr

/-- `str.replace` leaves a string with no occurrence of the pattern
unchanged. -/
theorem str_replace_no_occurrence (old new : List Char) (hold : old ≠ []) :
    ∀ l, hasSub old l = false → str_replace old new l = l := by
  have aux : ∀ l, hasSub old l = false → strReplaceAux old new 0 l = l := by
    intro l
    induction l with
    | nil => intro h; simp [strReplaceAux, hold]
    | cons c rest ih =>
      intro h
      simp only [hasSub, Bool.or_eq_false_iff] at h
      simp [strReplaceAux, hold, h.1, ih h.2]
  intro l hl
  exact aux l hl

/-- The pipe split always yields at least one fragment. -/
theorem splitPipes_ne_nil (prev : Option Char) (l : List Char) :
    splitUnescapedPipes prev l ≠ [] := by
  match l with
  | [] => simp [splitUnescapedPipes]
  | [c] => simp [splitUnescapedPipes]
  | c :: d :: rest =>
    simp only [splitUnescapedPipes]
    split
    · simp
    · cases splitUnescapedPipes (some c) (d :: rest) <;> simp

/-- A line with no unescaped-or-not `||` at all is a single fragment. -/
theorem splitPipes_no_delim :
    ∀ (l : List Char) (prev : Option Char), hasSub ['|', '|'] l = false →
      splitUnescapedPipes prev l = [l] := by
  intro l
  induction l with
  | nil => intro prev h; rfl
  | cons c tl ih =>
    intro prev h
    cases tl with
    | nil => rfl
    | cons d rest =>
      have hnot : ¬(c = '|' ∧ d = '|' ∧ prev ≠ some '\\') := by
        rintro ⟨hc, hd, -⟩
        subst hc; subst hd
        simp [hasSub, List.isPrefixOf] at h
      have htl : hasSub ['|', '|'] (d :: rest) = false := by
        simp only [hasSub, Bool.or_eq_false_iff] at h ⊢
        exact h.2
      simp only [splitUnescapedPipes, if_neg hnot]
      rw [ih (some c) htl]

/-- Splitting at an explicit unescaped `||` boundary: a prefix with no `||`
of its own, not ending in a backslash (which would escape the delimiter) and
not ending in a pipe (which would shift the match), becomes the first
fragment, and scanning resumes after the delimiter. -/
theorem splitPipes_append :
    ∀ (a : List Char) (prev : Option Char) (b : List Char),
      hasSub ['|', '|'] a = false →
      (a = [] → prev ≠ some '\\') →
      a.getLast? ≠ some '\\' →
      a.getLast? ≠ some '|' →
      splitUnescapedPipes prev (a ++ '|' :: '|' :: b) =
        a :: splitUnescapedPipes (some '|') b := by
  intro a
  induction a with
  | nil =>
    intro prev b _ hprev _ _
    have hp := hprev rfl
    simp [splitUnescapedPipes, hp]
  | cons x tl ih =>
    intro prev b hsub hprev hlb hlp
    cases tl with
    | nil =>
      have hx_ne_pipe : x ≠ '|' := by simpa using hlp
      have hx_ne_bs : x ≠ '\\' := by simpa using hlb
      have hstep : splitUnescapedPipes (some x) ('|' :: '|' :: b) =
          [] :: splitUnescapedPipes (some '|') b := by
        simp [splitUnescapedPipes, hx_ne_bs]
      simp [splitUnescapedPipes, hstep, hx_ne_pipe, hx_ne_bs]
    | cons y a2 =>
      have hnot2 : ¬(x = '|' ∧ y = '|') := by
        rintro ⟨hc, hd⟩
        subst hc; subst hd
        simp [hasSub, List.isPrefixOf] at hsub
      have hsub2 : hasSub ['|', '|'] (y :: a2) = false := by
        simp only [hasSub, Bool.or_eq_false_iff] at hsub ⊢
        exact hsub.2
      have hlast : (y :: a2).getLast? = (x :: y :: a2).getLast? := by
        simp [List.getLast?_cons_cons]
      have hstep := ih (some x) b hsub2 (by simp) (hlast ▸ hlb) (hlast ▸ hlp)
      have hnot : ¬(x = '|' ∧ y = '|' ∧ prev ≠ some '\\') := by
        rintro ⟨hc, hd, -⟩; exact hnot2 ⟨hc, hd⟩
      rw [List.cons_append] at hstep
      simp only [List.cons_append, splitUnescapedPipes, if_neg hnot, List.append_eq]
      rw [hstep]

/-- The one-character lookbehind state only matters when it is a backslash:
any two non-backslash states scan identically. -/
theorem splitPipes_prev_irrel :
    ∀ (l : List Char) (p q : Option Char), p ≠ some '\\' → q ≠ some '\\' →
      splitUnescapedPipes p l = splitUnescapedPipes q l := by
  intro l
  induction l with
  | nil => intro p q _ _; rfl
  | cons c tl ih =>
    intro p q hp hq
    cases tl with
    | nil => rfl
    | cons d rest =>
      by_cases hcd : c = '|' ∧ d = '|'
      · have hcp : (c = '|' ∧ d = '|' ∧ p ≠ some '\\') := ⟨hcd.1, hcd.2, hp⟩
        have hcq : (c = '|' ∧ d = '|' ∧ q ≠ some '\\') := ⟨hcd.1, hcd.2, hq⟩
        simp only [splitUnescapedPipes, if_pos hcp, if_pos hcq]
      · have hcp : ¬(c = '|' ∧ d = '|' ∧ p ≠ some '\\') := by
          rintro ⟨h1, h2, -⟩; exact hcd ⟨h1, h2⟩
        have hcq : ¬(c = '|' ∧ d = '|' ∧ q ≠ some '\\') := by
          rintro ⟨h1, h2, -⟩; exact hcd ⟨h1, h2⟩
        simp only [splitUnescapedPipes, if_neg hcp, if_neg hcq]

/-! Claim theorems. -/

/-- Claim C1, counterexample: the parser accepts `pos 0 upper` (producing a
Position target 0), and applying that rule to the empty word raises an
`IndexError`, so apply is not failure-free on parser-produced rulesets. -/
theorem c1_counterexample :
    parse_single_rule ("pos 0 upper".toList) = some (.case_transform_position 0 .upper) ∧
    apply_rules [] [.case_transform_position 0 .upper] false = .error .index_error := by
  decide

/-- Claim C1, amended: apply never fails provided every Position target is
at least 1 and, in case-insensitive mode, every Replace-All replacement
contains no backslash. -/
theorem c1_apply_safe (word : List Char) (rules : List Rule) (ci : Bool)
    (hsafe : ∀ r ∈ rules, ruleApplySafe ci r = true) :
    ∃ out, apply_rules word rules ci = .ok out := by
  induction rules generalizing word with
  | nil => exact ⟨word, rfl⟩
  | cons r rs ih =>
    obtain ⟨w1, hw1⟩ := apply_rule_safe ci word r (hsafe r (List.mem_cons_self r rs))
    obtain ⟨out, hout⟩ := ih w1 (fun r' hr' => hsafe r' (List.mem_cons_of_mem r hr'))
    exact ⟨out, by rw [apply_rules_cons, hw1, exceptBindOk, hout]⟩

/-- Claim C1, witness: a concrete two-rule case-insensitive run. -/
theorem c1_apply_safe_witness :
    ∃ out, apply_rules ("ab".toList)
      [.case_transform_position 1 .upper, .replace ['a'] .all ['@']] true = .ok out :=
  c1_apply_safe ("ab".toList)
    [.case_transform_position 1 .upper, .replace ['a'] .all ['@']] true (by decide)

/-- Claim C2, counterexample: with replacement text backslash-n, the
characters inserted in place of the match are a newline, not the two
characters of the replacement — `re.sub` reinterprets the replacement as a
template. -/
theorem c2_counterexample :
    apply_rules ['a'] [.replace ['a'] .all ['\\', 'n']] true = .ok ['\n'] ∧
    ['\n'] ≠ ['\\', 'n'] := by
  constructor
  · rw [apply_rules_cons]
    rw [show apply_rule true ['a'] (.replace ['a'] .all (['\\', 'n'])) = .ok ['\n'] by
      have h : parse_template (['\\', 'n']) = .ok [.lit '\n'] := by
        simp [parse_template, applyEscape, sreEscapes, Except.map]
      simp [apply_rule, h]
      decide]
    rfl
  · decide

/-- Claim C2, amended: for a backslash-free replacement the engine's
case-insensitive replace-all inserts the replacement verbatim at every
(lowercase-compared) occurrence of `char`. -/
theorem c2_verbatim_amended (word char repl : List Char) (h : '\\' ∉ repl) :
    apply_rules word [.replace char .all repl] true =
      .ok (specVerbatimReplaceAllCI char repl word) := by
  rw [apply_rules_cons]
  rw [show apply_rule true word (.replace char .all repl) =
      .ok (specVerbatimReplaceAllCI char repl word) by
    simp [apply_rule, parse_template_no_bs repl h, subIgnoreCase,
      specVerbatimReplaceAllCI, subIgnoreCaseAux_lit]]
  rfl

/-- Claim C2, witness: a concrete backslash-free run. -/
theorem c2_verbatim_witness :
    ('\\' ∉ ['@']) ∧
    apply_rules ("aBa".toList) [.replace ['a'] .all ['@']] true =
      .ok (specVerbatimReplaceAllCI ['a'] ['@'] ("aBa".toList)) :=
  ⟨by decide, c2_verbatim_amended ("aBa".toList) ['a'] ['@'] (by decide)⟩

/-- Inversion of the parser on a produced rule: every ordinal in the rule is
exactly the integer `pyInt` parsed from the instance token; no positivity
check is applied anywhere. -/
theorem parse_single_rule_ordinal_inv (f : List Char) (r : Rule)
    (h : parse_single_rule f = some r) :
    (∀ p op, r = .case_transform_position p op →
      ∃ t0 t1 t2, pySplit f = [t0, t1, t2] ∧ pyInt t1 = some p) ∧
    (∀ ch n op, r = .case_transform_character ch n op →
      ∃ t1 t2, pySplit f = [ch, t1, t2] ∧ pyInt t1 = some n) ∧
    (∀ ch n repl, r = .replace ch (.nth n) repl →
      ∃ t1 rest, pySplit f = ch :: t1 :: repl :: rest ∧ pyInt t1 = some n) := by
  unfold parse_single_rule at h
  rcases hsplit : pySplit f with - | ⟨t0, - | ⟨t1, - | ⟨t2, rest⟩⟩⟩ <;> rw [hsplit] at h
  · simp at h
  · simp at h
  · simp at h
  · cases rest with
    | nil =>
      simp only [] at h
      by_cases hpos : lowerList t0 = "pos".toList
      · rw [if_pos hpos] at h
        cases hpy : pyInt t1 with
        | none => rw [hpy] at h; simp at h
        | some v =>
          rw [hpy] at h
          dsimp only [] at h
          by_cases hop : isOperationToken (lowerList t2)
          · rw [if_pos hop] at h
            injection h with h
            subst h
            refine ⟨?_, ?_, ?_⟩
            · intro p op hpe
              injection hpe with h1 h2
              subst h1
              exact ⟨t0, t1, t2, rfl, hpy⟩
            · intro ch n op hpe; exact absurd hpe (by simp)
            · intro ch n repl hpe; exact absurd hpe (by simp)
          · rw [if_neg hop] at h; simp at h
      · rw [if_neg hpos] at h
        by_cases hop : isOperationToken (lowerList t2)
        · rw [if_pos hop] at h
          by_cases hall : lowerList t1 = "all".toList
          · rw [if_pos hall] at h; simp at h
          · rw [if_neg hall] at h
            cases hpy : pyInt t1 with
            | none => rw [hpy] at h; simp at h
            | some v =>
              rw [hpy] at h
              dsimp only [] at h
              injection h with h
              subst h
              refine ⟨?_, ?_, ?_⟩
              · intro p op hpe; exact absurd hpe (by simp)
              · intro ch n op hpe
                injection hpe with h1 h2 h3
                subst h1; subst h2
                exact ⟨t1, t2, rfl, hpy⟩
              · intro ch n repl hpe; exact absurd hpe (by simp)
        · rw [if_neg hop] at h
          unfold parseReplaceBranch at h
          by_cases hall : lowerList t1 = "all".toList
          · rw [if_pos hall] at h
            injection h with h
            subst h
            refine ⟨?_, ?_, ?_⟩
            · intro p op hpe; exact absurd hpe (by simp)
            · intro ch n op hpe; exact absurd hpe (by simp)
            · intro ch n repl hpe; simp at hpe
          · rw [if_neg hall] at h
            cases hpy : pyInt t1 with
            | none => rw [hpy] at h; simp at h
            | some v =>
              rw [hpy] at h
              dsimp only [] at h
              injection h with h
              subst h
              refine ⟨?_, ?_, ?_⟩
              · intro p op hpe; exact absurd hpe (by simp)
              · intro ch n op hpe; exact absurd hpe (by simp)
              · intro ch n repl hpe
                simp at hpe
                obtain ⟨h1, h2, h3⟩ := hpe
                subst h1; subst h2; subst h3
                exact ⟨t1, [], rfl, hpy⟩
    | cons r0 rest2 =>
      simp only [] at h
      unfold parseReplaceBranch at h
      by_cases hall : lowerList t1 = "all".toList
      · rw [if_pos hall] at h
        injection h with h
        subst h
        refine ⟨?_, ?_, ?_⟩
        · intro p op hpe; exact absurd hpe (by simp)
        · intro ch n op hpe; exact absurd hpe (by simp)
        · intro ch n repl hpe; simp at hpe
      · rw [if_neg hall] at h
        cases hpy : pyInt t1 with
        | none => rw [hpy] at h; simp at h
        | some v =>
          rw [hpy] at h
          dsimp only [] at h
          injection h with h
          subst h
          refine ⟨?_, ?_, ?_⟩
          · intro p op hpe; exact absurd hpe (by simp)
          · intro ch n op hpe; exact absurd hpe (by simp)
          · intro ch n repl hpe
            simp at hpe
            obtain ⟨h1, h2, h3⟩ := hpe
            subst h1; subst h2; subst h3
            exact ⟨t1, r0 :: rest2, rfl, hpy⟩

/-- Claim C3, counterexample: parsing succeeds on `pos 0 upper` and the
produced Position ordinal is 0, which is not strictly positive. -/
theorem c3_counterexample :
    parse_single_rule ("pos 0 upper".toList) = some (.case_transform_position 0 .upper) ∧
    ¬(0 < (0 : Int)) := by
  decide

/-- Claim C3, amended: parsed ordinals are exactly the integers denoted by
the instance/position token — the parser applies no positivity check, and
zero or negative ordinals are accepted in all three rule shapes. -/
theorem c3_ordinals_amended :
    (∀ f p op, parse_single_rule f = some (.case_transform_position p op) →
      ∃ t0 t1 t2, pySplit f = [t0, t1, t2] ∧ pyInt t1 = some p) ∧
    (∀ f ch n op, parse_single_rule f = some (.case_transform_character ch n op) →
      ∃ t1 t2, pySplit f = [ch, t1, t2] ∧ pyInt t1 = some n) ∧
    (∀ f ch n repl, parse_single_rule f = some (.replace ch (.nth n) repl) →
      ∃ t1 rest, pySplit f = ch :: t1 :: repl :: rest ∧ pyInt t1 = some n) ∧
    parse_single_rule ("pos 0 upper".toList) = some (.case_transform_position 0 .upper) ∧
    parse_single_rule ("z 0 u".toList) = some (.case_transform_character ['z'] 0 .upper) ∧
    parse_single_rule ("a -2 x".toList) = some (.replace ['a'] (.nth (-2)) ['x']) :=
  ⟨fun f p op h => (parse_single_rule_ordinal_inv f _ h).1 p op rfl,
   fun f ch n op h => (parse_single_rule_ordinal_inv f _ h).2.1 ch n op rfl,
   fun f ch n repl h => (parse_single_rule_ordinal_inv f _ h).2.2 ch n repl rfl,
   by decide, by decide, by decide⟩

/-- Claim C3, witness: the inversion applied to the concrete `pos 0 upper`
parse. -/
theorem c3_ordinals_witness :
    ∃ t0 t1 t2, pySplit ("pos 0 upper".toList) = [t0, t1, t2] ∧ pyInt t1 = some 0 :=
  c3_ordinals_amended.1 ("pos 0 upper".toList) 0 .upper (by decide)

/-- Claim C4, counterexample: the engine replaces the second `s` of
`password`, producing `pas$word`; the claim's stated result `pa$sword`
(which would correspond to the first `s`) differs. -/
theorem c4_counterexample :
    apply_rules ("password".toList) [.replace ['s'] (.nth 2) ['$']] false =
      .ok ("pas$word".toList) ∧
    "pas$word".toList ≠ "pa$sword".toList := by
  decide

/-- Claim C4, amended: for `n` at least 1, the engine substitutes exactly
the `n`-th matching occurrence (exact or lowercased comparison per the
flag), leaves every other character unchanged, and returns the word
unchanged with fewer than `n` matches; the concrete example yields
`pas$word`. -/
theorem c4_nth_replace_amended :
    (∀ (word char repl : List Char) (n : Int) (ci : Bool), 1 ≤ n →
      apply_rules word [.replace char (.nth n) repl] ci =
        .ok (specReplaceNth (charMatch ci char) n repl word)) ∧
    apply_rules ("password".toList) [.replace ['s'] (.nth 2) ['$']] false =
      .ok ("pas$word".toList) := by
  constructor
  · intro word char repl n ci hn
    rw [apply_rules_cons]
    rw [show apply_rule ci word (.replace char (.nth n) repl) =
        .ok (replaceNthLoop (charMatch ci char) n repl 0 word) from rfl]
    rw [exceptBindOk, apply_rules_nil]
    rw [replaceNthLoop_spec (charMatch ci char) n repl word 0 (n - 1).toNat (by omega)]
    rfl
  · decide

/-- Claim C4, witness: the amended statement at the concrete example. -/
theorem c4_nth_replace_witness :
    apply_rules ("password".toList) [.replace ['s'] (.nth 2) ['$']] false =
      .ok (specReplaceNth (charMatch false ['s']) 2 ['$'] ("password".toList)) :=
  c4_nth_replace_amended.1 ("password".toList) ['s'] ['$'] 2 false (by decide)

/-- Claim C5: a `Position(p)` case transform with `p` at least 1 transforms
exactly the character at 1-based position `p` when `p` is within the current
length and is a no-op past the end; the position is judged against the word
as produced by all prior rules (the fold sequences rules left to right);
and `pos 1 upper` on `password` gives `Password`. -/
theorem c5_case_position :
    (∀ (word : List Char) (p : Int) (op : Operation) (ci : Bool), 1 ≤ p →
      apply_rules word [.case_transform_position p op] ci = .ok (specCasePos p op word)) ∧
    (∀ (word : List Char) (rules : List Rule) (r : Rule) (ci : Bool),
      apply_rules word (rules ++ [r]) ci =
        (apply_rules word rules ci) >>= (fun w' => apply_rule ci w' r)) ∧
    apply_rules ("password".toList) [.case_transform_position 1 .upper] false =
      .ok ("Password".toList) := by
  refine ⟨?_, fun word rules r ci => apply_rules_append word rules r ci, by decide⟩
  intro word p op ci hp
  rw [apply_rules_cons]
  by_cases hle : p ≤ (word.length : Int)
  · have h0 : (0 : Int) ≤ p - 1 := by omega
    rw [show apply_rule ci word (.case_transform_position p op) =
        .ok (modifyNth (applyOperation op) (p - 1).toNat word) by
      simp [apply_rule, hle, h0]]
    rw [exceptBindOk, apply_rules_nil]
    have hk : (p - 1).toNat < word.length := by omega
    rw [modifyNth_eq (applyOperation op) word (p - 1).toNat hk]
    have h1 : (p - 1).toNat = p.toNat - 1 := by omega
    have h2 : (p - 1).toNat + 1 = p.toNat := by omega
    rw [h2, h1, specCasePos, if_pos hle]
  · rw [show apply_rule ci word (.case_transform_position p op) = .ok word by
      simp [apply_rule, hle]]
    rw [exceptBindOk, apply_rules_nil, specCasePos, if_neg hle]

/-- Claim C5, witness: the statement at the concrete example. -/
theorem c5_case_position_witness :
    apply_rules ("password".toList) [.case_transform_position 1 .upper] false =
      .ok (specCasePos 1 .upper ("password".toList)) :=
  c5_case_position.1 ("password".toList) 1 .upper false (by decide)

/-- A character below the basic-latin uppercase range is fixed by
lowercasing. -/
theorem toLower_small (c : Char) (h : c.toNat < 65) : c.toLower = c := by
  have hn : ¬(c.toNat ≥ 65 ∧ c.toNat ≤ 90) := by omega
  simp [Char.toLower, hn]

/-- Decimal digits sit below the uppercase range. -/
theorem isDigit_toNat_lt (c : Char) (h : c.isDigit = true) : c.toNat < 65 := by
  simp [Char.isDigit] at h
  have h2 : c.val.toNat ≤ 57 := UInt32.toNat_le_of_le (by decide) h.2
  simp only [Char.toNat]
  omega

/-- A whitespace character sits below the uppercase range. -/
theorem pyIsSpace_toNat_lt (c : Char) (h : pyIsSpace c = true) : c.toNat < 65 := by
  simp [pyIsSpace] at h
  rcases h with ((((h | h) | h) | h) | h) | h <;> subst h <;> decide

/-- A token that lowercases to `all` is not an integer literal. -/
theorem pyInt_of_lower_all (p1 : List Char) (h : lowerList p1 = "all".toList) :
    pyInt p1 = none := by
  match p1 with
  | [] => simp [lowerList] at h
  | [c1] => simp [lowerList] at h
  | [c1, c2] => simp [lowerList] at h
  | c1 :: c2 :: c3 :: c4 :: rest => simp [lowerList] at h
  | [c1, c2, c3] =>
    simp [lowerList] at h
    obtain ⟨h1, h2, h3⟩ := h
    have hsp1 : pyIsSpace c1 = false := by
      cases hsp : pyIsSpace c1 with
      | false => rfl
      | true =>
        rw [toLower_small c1 (pyIsSpace_toNat_lt c1 hsp)] at h1
        subst h1
        exact absurd hsp (by decide)
    have hsp3 : pyIsSpace c3 = false := by
      cases hsp : pyIsSpace c3 with
      | false => rfl
      | true =>
        rw [toLower_small c3 (pyIsSpace_toNat_lt c3 hsp)] at h3
        subst h3
        exact absurd hsp (by decide)
    have hdig : c1.isDigit = false := by
      cases hd : c1.isDigit with
      | false => rfl
      | true =>
        rw [toLower_small c1 (isDigit_toNat_lt c1 hd)] at h1
        subst h1
        exact absurd hd (by decide)
    have hplus : ¬(c1 = '+') := by intro he; rw [he] at h1; exact absurd h1 (by decide)
    have hminus : ¬(c1 = '-') := by intro he; rw [he] at h1; exact absurd h1 (by decide)
    have hstrip : pyStrip [c1, c2, c3] = [c1, c2, c3] := by
      simp [pyStrip, List.dropWhile, hsp1, hsp3]
    unfold pyInt
    rw [hstrip]
    split
    · rename_i heq
      injection heq with hh _
      exact absurd hh hplus
    · rename_i heq
      injection heq with hh _
      exact absurd hh hminus
    · rename_i heq
      injection heq with hh _
      subst hh
      rw [hdig]
      simp
    · rename_i heq
      simp at heq

/-- Claim C8: parse_single_rule is total by construction (it is a function
into `Option Rule`, `none` modelling a warning with no rule); on a 3-token
fragment whose first token is not `pos` (case-insensitively) and whose third
token is an operation name, an `all` instance specifier yields no rule
and an integer instance specifier `n` yields the character-instance case
transform with the normalized operation. -/
theorem c8_char_case_dispatch (f p0 p1 p2 : List Char)
    (hsplit : pySplit f = [p0, p1, p2])
    (hpos : lowerList p0 ≠ "pos".toList)
    (hop : isOperationToken (lowerList p2)) :
    (lowerList p1 = "all".toList → parse_single_rule f = none) ∧
    (∀ n : Int, pyInt p1 = some n →
      parse_single_rule f =
        some (.case_transform_character p0 n (normalizeOperation (lowerList p2)))) := by
  constructor
  · intro hall
    unfold parse_single_rule
    rw [hsplit]
    dsimp only []
    rw [if_neg hpos, if_pos hop, if_pos hall]
  · intro n hn
    have hall : lowerList p1 ≠ "all".toList := by
      intro hl
      rw [pyInt_of_lower_all p1 hl] at hn
      exact absurd hn (by simp)
    unfold parse_single_rule
    rw [hsplit]
    dsimp only []
    rw [if_neg hpos, if_pos hop, if_neg hall, hn]

/-- Claim C8, witness: the dispatch at the specification's two examples. -/
theorem c8_char_case_witness :
    parse_single_rule ("z all upper".toList) = none ∧
    parse_single_rule ("z 1 upper".toList) =
      some (.case_transform_character ['z'] 1 .upper) := by
  have h1 := c8_char_case_dispatch ("z all upper".toList) ['z'] ("all".toList)
    ("upper".toList) (by decide) (by decide) (by decide)
  have h2 := c8_char_case_dispatch ("z 1 upper".toList) ['z'] ['1']
    ("upper".toList) (by decide) (by decide) (by decide)
  refine ⟨h1.1 (by decide), ?_⟩
  rw [h2.2 1 (by decide)]
  decide

/-- Claim C9, counterexample: `a x y z` has four tokens and matches neither
case-transform shape, yet no Replace rule is produced — the instance token
`x` is neither `all` nor an integer, so the fragment is dropped. -/
theorem c9_counterexample :
    pySplit ("a x y z".toList) = [['a'], ['x'], ['y'], ['z']] ∧
    parse_single_rule ("a x y z".toList) = none := by
  decide

/-- Claim C9, amended: on four or more tokens the parser always takes the
replacement branch on the first three tokens — later tokens never affect
the result — and that branch yields a Replace rule whose replacement is
exactly the third token when the second token is `all` or an integer, and
no rule otherwise. -/
theorem c9_extra_tokens_amended (f p0 p1 p2 : List Char) (rest : List (List Char))
    (hsplit : pySplit f = p0 :: p1 :: p2 :: rest) (hne : rest ≠ []) :
    parse_single_rule f = parseReplaceBranch p0 p1 p2 ∧
    ((lowerList p1 = "all".toList ∧ parse_single_rule f = some (.replace p0 .all p2)) ∨
     (∃ n, pyInt p1 = some n ∧ parse_single_rule f = some (.replace p0 (.nth n) p2)) ∨
     (lowerList p1 ≠ "all".toList ∧ pyInt p1 = none ∧ parse_single_rule f = none)) := by
  cases rest with
  | nil => exact absurd rfl hne
  | cons r0 rest2 =>
    have hmain : parse_single_rule f = parseReplaceBranch p0 p1 p2 := by
      unfold parse_single_rule
      rw [hsplit]
    refine ⟨hmain, ?_⟩
    rw [hmain]
    unfold parseReplaceBranch
    by_cases hall : lowerList p1 = "all".toList
    · exact Or.inl ⟨hall, by rw [if_pos hall]⟩
    · cases hpy : pyInt p1 with
      | some n =>
        exact Or.inr (Or.inl ⟨n, rfl, by rw [if_neg hall]⟩)
      | none =>
        exact Or.inr (Or.inr ⟨hall, rfl, by rw [if_neg hall]⟩)

/-- Claim C9, witness: the amended statement at `z 1 upper extra`, where the
third token (`upper`) becomes the replacement text. -/
theorem c9_extra_tokens_witness :
    parse_single_rule ("z 1 upper extra".toList) =
      parseReplaceBranch ['z'] ['1'] ("upper".toList) := by
  exact (c9_extra_tokens_amended ("z 1 upper extra".toList) ['z'] ['1'] ("upper".toList)
    [("extra".toList)] (by decide) (by decide)).1

/-- Claim C10: a Position target `p` at most 0 is not a no-op — Python's
signed list indexing addresses the character at 1-based position
`length + p` (counted from the end, `p = 0` being the last character), which
is case-transformed with every other character unchanged, whenever
`1 - length ≤ p ≤ 0`. -/
theorem c10_negative_position (word : List Char) (p : Int) (op : Operation) (ci : Bool)
    (hlo : 1 - (word.length : Int) ≤ p) (hhi : p ≤ 0) :
    ∃ k : Nat, (k : Int) = (word.length : Int) + p - 1 ∧
      apply_rules word [.case_transform_position p op] ci =
        .ok (word.take k ++ [applyOperation op (word.getD k ' ')] ++ word.drop (k + 1)) := by
  have hlen : 1 ≤ (word.length : Int) := by omega
  have hle : p ≤ (word.length : Int) := by omega
  have hneg : ¬((0 : Int) ≤ p - 1) := by omega
  have hrange : -(word.length : Int) ≤ p - 1 := by omega
  refine ⟨(p - 1 + word.length).toNat, by omega, ?_⟩
  rw [apply_rules_cons]
  rw [show apply_rule ci word (.case_transform_position p op) =
      .ok (modifyNth (applyOperation op) (p - 1 + word.length).toNat word) by
    simp [apply_rule, hle, hneg, hrange]]
  rw [exceptBindOk, apply_rules_nil]
  rw [modifyNth_eq (applyOperation op) word (p - 1 + word.length).toNat (by omega)]

/-- Claim C10, witness: `pos -2 upper` on `abc` transforms the character at
1-based position 1. -/
theorem c10_negative_position_witness :
    ∃ k : Nat, (k : Int) = (("abc".toList).length : Int) + (-2) - 1 ∧
      apply_rules ("abc".toList) [.case_transform_position (-2) .upper] false =
        .ok (("abc".toList).take k ++
          [applyOperation .upper (("abc".toList).getD k ' ')] ++ ("abc".toList).drop (k + 1)) :=
  c10_negative_position ("abc".toList) (-2) .upper false (by decide) (by decide)

/-- Claim C6: the delimiter split of the source — splits at every unescaped
`||` (conjunct 4, with the boundary conditions excluding an escaping
backslash and an overlapping pipe), keeps escaped delimiters literally with
the escaping backslash removed (conjunct 2), trims each fragment, yields one
fragment for a delimiter-free line with any stray backslash preserved
(conjunct 3, where only stripping happens), and the two concrete examples of
the specification hold (conjuncts 1 and 2). -/
theorem c6_split_escaped :
    split_escaped_delimiters ("a || b".toList) = ["a".toList, "b".toList] ∧
    split_escaped_delimiters ("a \\|| b".toList) = ["a || b".toList] ∧
    (∀ text, hasSub ['|', '|'] text = false →
      split_escaped_delimiters text = [pyStrip text]) ∧
    (∀ a b, hasSub ['|', '|'] a = false →
      a.getLast? ≠ some '\\' → a.getLast? ≠ some '|' →
      split_escaped_delimiters (a ++ '|' :: '|' :: b) =
        pyStrip a :: split_escaped_delimiters b) := by
  have hunesc : ∀ l, hasSub ['|', '|'] l = false →
      str_replace ('\\' :: ['|', '|']) ['|', '|'] l = l := by
    intro l hl
    refine str_replace_no_occurrence _ _ (by simp) l ?_
    cases hbs : hasSub ('\\' :: ['|', '|']) l with
    | false => rfl
    | true => rw [hasSub_of_cons '\\' ['|', '|'] l hbs] at hl; exact absurd hl (by simp)
  refine ⟨by decide, by decide, ?_, ?_⟩
  · intro text h
    rw [split_escaped_delimiters, splitPipes_no_delim text none h]
    simp only [List.map_cons, List.map_nil]
    rw [hunesc text h]
  · intro a b ha hlb hlp
    rw [split_escaped_delimiters,
      splitPipes_append a none b ha (fun _ => by simp) hlb hlp]
    rw [split_escaped_delimiters,
      splitPipes_prev_irrel b (some '|') none (by simp) (by simp)]
    simp only [List.map_cons]
    rw [hunesc a ha]

/-- Claim C6, witness: the no-delimiter conjunct at a concrete line with a
stray backslash, which is preserved. -/
theorem c6_split_escaped_witness :
    split_escaped_delimiters (['x', '\\', 'y']) = [pyStrip (['x', '\\', 'y'])] :=
  c6_split_escaped.2.2.1 (['x', '\\', 'y']) (by decide)

/-- Claim C7: the `delimiter` parameter does not govern where splits occur —
the splitting regex is hardcoded to `||`.  With delimiter `--` the line
`a--b` stays one fragment, not the two fragments the contract promises; and
for every text and delimiter the number of fragments equals that of the
default delimiter. -/
theorem c7_delimiter_ignored :
    split_escaped_delimiters ("a--b".toList) (['-', '-']) = ["a--b".toList] ∧
    ["a--b".toList] ≠ ["a".toList, "b".toList] ∧
    (∀ (text d : List Char),
      (split_escaped_delimiters text d).length = (split_escaped_delimiters text).length) := by
  refine ⟨by decide, by decide, ?_⟩
  intro text d
  simp [split_escaped_delimiters]

end PasswordForge
